import Mathlib

/-
Verification development for the TTcross (matrix-product-state cross
approximation) module `tensorly/contrib/mps_decomposition_cross.py`.

The Python module is shallowly embedded below:
* machine floats are modelled by exact rationals;
* numpy exceptions are modelled by `Except PyErr` (or the three-valued
  `RngRes`, whose extra value `spin` marks a run that exhausted its fuel,
  i.e. a loop that has not terminated yet);
* the process-global numpy random source is modelled by an explicit stream
  `s : Nat -> Nat` together with a read counter, `randint(b)` reading
  `s t % b` (and raising, like numpy, when `b = 0`);
* the parts of the algorithm whose exact float values are irrelevant to the
  claims under study (QR factorisation, the norms driving the convergence
  loop) are abstracted: the outer convergence loop is embedded parametrically
  in the loop body, and the reshape/transpose bookkeeping of the sweeps is
  embedded at the level of array shapes, where numpy reshape succeeds exactly
  when the element counts agree.
-/

namespace TTCross

/-- The error conditions surfaced by the module.  `valueError` is a generic
numpy/python ValueError (bad reshape, `randint(0)`, argmax of an empty
array), `indexError` an out-of-range list subscript, `rankTooLarge` the
specific `ValueError("The rank is too large compared to the size of the
tensor...")` raised in the try/except of `matrix_product_state_cross`,
`linAlgError` the `numpy.linalg.LinAlgError` raised by `tl.inverse` on a
singular matrix, and the last two are the two convergence-check
`ValueError`s raised after the outer loop. -/
inductive PyErr : Type
  | valueError : PyErr
  | indexError : PyErr
  | rankTooLarge : PyErr
  | linAlgError : PyErr
  | maxIterError : PyErr
  | notConvergedError : PyErr
deriving DecidableEq, Repr

/-- The `rank` argument of `matrix_product_state_cross`: either a single
integer or an explicit list (lines 84-89 of the source). -/
inductive RankSpec : Type
  | int : ℤ → RankSpec
  | list : List ℤ → RankSpec
deriving DecidableEq, Repr

/-- Lines 84-89: an integer rank is broadcast to a profile of length `d+1`;
a list of the wrong length raises a ValueError.  The error payload records
the two values inserted into the message format string, in order: the
message text reads `... but len(rank) = {} while tl.ndim(tensor) + 1  = {}`
and the code formats it with `(len(rank), d)`. -/
def checkRank (d : ℕ) : RankSpec → Except (ℕ × ℕ) (List ℤ)
  | .int r => .ok (List.replicate (d + 1) r)
  | .list rs => if d + 1 ≠ rs.length then .error (rs.length, d) else .ok rs

/-- The advisory messages printed while normalising the rank boundary
(lines 95-103).  Each carries the integer actually inserted into the
printed format string. -/
inductive Notice : Type
  | headClamped : ℤ → Notice
  | lastFlagged : ℤ → Notice
deriving DecidableEq, Repr

/-- Lines 94-103 of the source: if `rank[0] != 1` the code prints a notice
and sets `rank[0] = 1`; if `rank[-1] != 1` the code prints a notice (whose
format argument is `rank[0]`, after the possible clamping) but performs no
assignment to `rank[-1]`. -/
def initRank (rank : List ℤ) : List ℤ × List Notice :=
  let p := if rank.getD 0 0 ≠ 1 then (rank.set 0 1, [Notice.headClamped (rank.getD 0 0)])
           else (rank, [])
  let n2 := if p.1.getLastD 0 ≠ 1 then [Notice.lastFlagged (p.1.getD 0 0)] else []
  (p.1, p.2 ++ n2)

/-- The head-clamping effect of `initRank` on a nonnegative shape-level
profile: `rank[0]` is set to 1, the tail (including `rank[-1]`) is left
untouched. -/
def initRankShapes : List ℕ → List ℕ
  | [] => []
  | _ :: t => 1 :: t

/-! ### maxvol (source lines 338-416)

Matrices are lists of rows of exact rationals.  The only square root the
algorithm takes, `tl.sqrt(rows_norms * rows_norms[max_row_idx])`, is
modelled by `ratSqrt`, which agrees with the real square root whenever the
numerator and denominator of its argument are perfect squares — which is
the case at every concrete input evaluated in this file. -/

/-- Row dot product. -/
def dotL (u v : List ℚ) : ℚ := (List.zipWith (fun a b => a * b) u v).sum

/-- Squared euclidean norm of a row (`tl.sum(A_new ** 2, axis=1)`). -/
def normSq (v : List ℚ) : ℚ := dotL v v

/-- Rational square root, exact on quotients of perfect squares. -/
def ratSqrt (q : ℚ) : ℚ := (Nat.sqrt q.num.natAbs : ℚ) / (Nat.sqrt q.den : ℚ)

/-- Index of the first maximum of a list (numpy `argmax` tie-breaking),
relative to a running best value. -/
def argmaxAux : List ℚ → ℕ → ℕ → ℚ → ℕ
  | [], _, b, _ => b
  | x :: xs, i, b, v => if v < x then argmaxAux xs (i + 1) i x else argmaxAux xs (i + 1) b v

/-- numpy `argmax`: first index attaining the maximum; raises on an empty
array. -/
def argmaxQ : List ℚ → Option ℕ
  | [] => none
  | x :: xs => some (argmaxAux xs 1 0 x)

/-- The mutable state of the maxvol while-loop: the working matrix `A_new`,
the original indices of its rows (`rest_of_rows`), and the row indices
selected so far (`row_idx[0:i]`). -/
structure MvState : Type where
  Anew : List (List ℚ)
  rest : List ℕ
  chosen : List ℕ
deriving DecidableEq, Repr

/-- One iteration of the maxvol while-loop (source lines 381-410).  If some
working row has zero norm, both `rest_of_rows` and `A_new` are filtered by
the nonzero mask and the loop continues without selecting.  Otherwise the
first row of maximum squared norm is picked; every working row `v` is
replaced by `v - v * (dot(v, pick) / sqrt(normSq v * normSq picked_row))`
where `pick` is the corresponding row of the ORIGINAL matrix `A`; then the
picked row is deleted and its original index recorded. -/
def maxvolStep (A : List (List ℚ)) (st : MvState) : Except PyErr MvState :=
  let norms := st.Anew.map normSq
  if 0 ∈ norms then
    .ok { Anew := (List.zip st.Anew norms).filterMap
            (fun p => if p.2 ≠ 0 then some p.1 else none),
          rest := (List.zip st.rest norms).filterMap
            (fun p => if p.2 ≠ 0 then some p.1 else none),
          chosen := st.chosen }
  else
    match argmaxQ norms with
    | none => .error .valueError
    | some m =>
      let pick := A.getD (st.rest.getD m 0) []
      let nm := norms.getD m 0
      let Adefl := (List.zip st.Anew norms).map
        (fun p => p.1.map (fun a => a - a * (dotL p.1 pick / ratSqrt (p.2 * nm))))
      .ok { Anew := Adefl.eraseIdx m,
            rest := st.rest.eraseIdx m,
            chosen := st.chosen ++ [st.rest.getD m 0] }

/-- The fueled maxvol while-loop (`while i < r`); `none` means the fuel ran
out before `r` rows were selected. -/
def maxvolLoop (A : List (List ℚ)) (r : ℕ) : ℕ → MvState → Option (Except PyErr (List ℕ))
  | 0, _ => none
  | fuel + 1, st =>
    if st.chosen.length < r then
      match maxvolStep A st with
      | .error e => some (.error e)
      | .ok st2 => maxvolLoop A r fuel st2
    else some (.ok st.chosen)

/-- Initial maxvol state: `A_new = A`, `rest_of_rows = range(n)`, no row
selected yet. -/
def mvInit (A : List (List ℚ)) : MvState :=
  { Anew := A, rest := List.range A.length, chosen := [] }

/-- `A[row_idx, :]`. -/
def subRows (A : List (List ℚ)) (idx : List ℕ) : List (List ℚ) :=
  idx.map (fun i => A.getD i [])

/-- Determinant by gaussian elimination with explicit fuel (one unit per
eliminated row; `detG` supplies fuel equal to the row count).  `pivotSplit`
finds the first row with nonzero leading entry, returning it, the other
rows in order, and the parity of its position. -/
def pivotSplit : List (List ℚ) → Option (ℚ × List ℚ × List (List ℚ) × Bool)
  | [] => none
  | row :: rs =>
    if row.headD 0 ≠ 0 then some (row.headD 0, row.tail, rs, false)
    else match pivotSplit rs with
         | none => none
         | some (p, pt, rest, odd) => some (p, pt, row :: rest, !odd)

/-- Fueled elimination determinant. -/
def detFuel : ℕ → List (List ℚ) → ℚ
  | 0, _ => 1
  | _, [] => 1
  | fuel + 1, m =>
    match pivotSplit m with
    | none => 0
    | some (ph, pt, rest, odd) =>
      (if odd then -1 else 1) * ph *
        detFuel fuel
          (rest.map (fun row => List.zipWith (fun a b => a - row.headD 0 / ph * b) row.tail pt))

/-- Determinant of a square matrix given as a list of rows. -/
def detG (m : List (List ℚ)) : ℚ := detFuel m.length m

/-- Matrix inverse by cofactors (the model of `tl.inverse`; callers must
check `detG m = 0` first, as `tl.inverse` raises `LinAlgError` exactly on
singular input). -/
def inverseG (m : List (List ℚ)) : List (List ℚ) :=
  let k := m.length
  let d := detG m
  (List.range k).map (fun i => (List.range k).map (fun j =>
    ((-1 : ℚ) ^ (i + j) * detG ((m.eraseIdx j).map (fun row => row.eraseIdx i))) / d))

/-- The full `maxvol` function (source lines 370-416): run the selection
loop, then invert `A[row_idx, :]`; a singular selected submatrix makes
`tl.inverse` raise `LinAlgError` (uncaught in the source). -/
def maxvolRun (A : List (List ℚ)) (fuel : ℕ) :
    Option (Except PyErr (List ℕ × List (List ℚ))) :=
  match maxvolLoop A (A.headD []).length fuel (mvInit A) with
  | none => none
  | some (.error e) => some (.error e)
  | some (.ok idx) =>
    if detG (subRows A idx) = 0 then some (.error .linAlgError)
    else some (.ok (idx, inverseG (subRows A idx)))

/-- numpy `reshape`: succeeds, returning the target shape, exactly when the
element counts of the two shapes agree; raises a ValueError otherwise. -/
def reshapeTo (src tgt : List ℕ) : Option (List ℕ) :=
  if src.prod = tgt.prod then some tgt else none

/-- numpy `transpose` with an explicit axis permutation, acting on shapes. -/
def transposeShape (perm : List ℕ) (s : List ℕ) : List ℕ :=
  perm.map (fun i => s.getD i 0)

/-! ### The outer convergence loop (source lines 123-190)

The loop body (one full forward plus backward sweep, recomputing the factor
generations and the error/threshold pair) is abstracted into a state type
`σ` with a step function; `err` and `thr` read the current stored `error`
and `threshold` values, which the body recomputes purely from the factor
generations (the post-loop re-check at line 187 recomputes exactly the same
two norms). -/

/-- The Python `for iter in range(n)` loop of lines 127-182, started at
iteration index `j` with `rem` indices remaining.  Returns the final value
of the loop variable `iter` together with the final state: on `break`
(error < threshold) `iter` is the current index; on exhaustion `iter` is
the last index ran, `n - 1`, which here equals `j - 1` since `j = n`. -/
def crossLoopAux {σ : Type} (err thr : σ → ℚ) (step : σ → σ) :
    ℕ → ℕ → σ → ℕ × σ
  | 0, j, s => (j - 1, s)
  | rem + 1, j, s =>
    if err s < thr s then (j, s) else crossLoopAux err thr step rem (j + 1) (step s)

/-- Lines 123-190: run the loop, then the two post-loop checks.  `iter`
is initialised to 0, so when `n = 0` the loop body never runs and `iter`
stays 0.  After the loop, `iter >= n_iter_max` raises the maximum-iteration
error, and a final error strictly above the threshold raises the
did-not-converge error; otherwise the factors (here: the final state) are
returned. -/
def crossLoop {σ : Type} (n : ℕ) (step : σ → σ) (err thr : σ → ℚ) (s0 : σ) :
    Except PyErr σ :=
  let p := if n = 0 then (0, s0) else crossLoopAux err thr step n 0 s0
  if n ≤ p.1 then .error .maxIterError
  else if thr p.2 < err p.2 then .error .notConvergedError
  else .ok p.2

/-! ### Shape-level embedding of the two sweep steps

Every reshape/transpose of `left_right_ttcross_step`,
`right_left_ttcross_step` and the final-core computation is tracked on
array shapes.  numpy advanced indexing with `L` index lists and one slice
yields shape `(L, n_free)` when the index block is contiguous and
`(L, n_free)` with the broadcast dimension first otherwise; `tl.qr` returns
`Q` of shape `(m, min m c)` for an `(m, c)` input, and a completed maxvol
on `Q` selects `min m c` rows. -/

/-- Shape-level forward sweep step (`left_right_ttcross_step`, lines
193-264), for mode `k`, where `rowLen` and `colLen` are the lengths of
`row_idx[k]` and `col_idx[k]`.  Returns the length of the produced
`next_row_idx`.  The fiber-extraction loops of lines 226-229 subscript
`row_idx[k][i]` for `i < rank[k]` and `col_idx[k][j]` for `j < rank[k+1]`,
raising IndexError when those sets are too short. -/
def forwardStepLen (n rank : List ℕ) (k rowLen colLen : ℕ) : Except PyErr ℕ :=
  if rank.getD k 0 ≤ rowLen ∧ rank.getD (k + 1) 0 ≤ colLen then
    let ext := if k = 0 then [n.getD 0 0, colLen] else [rowLen * colLen, n.getD k 0]
    let tgt := if k = 0 then [n.getD 0 0, rank.getD 0 0, rank.getD 1 0]
               else [rank.getD k 0, rank.getD (k + 1) 0, n.getD k 0]
    match reshapeTo ext tgt with
    | none => .error .valueError
    | some s1 =>
      let s2 := if k = 0 then transposeShape [1, 0, 2] s1 else transposeShape [0, 2, 1] s1
      match reshapeTo s2 [rank.getD k 0 * n.getD k 0, rank.getD (k + 1) 0] with
      | none => .error .valueError
      | some _ => .ok (min (rank.getD k 0 * n.getD k 0) (rank.getD (k + 1) 0))
  else .error .indexError

/-- The forward sweep of lines 136-143: `row_idx` starts as `[[()]]` and
modes `k = 0 .. d-2` each append the next row index set.  `cnt` counts the
remaining modes; `colLens k` is the length of the current `col_idx[k]`.
Returns the list of lengths of `row_idx[0..d-1]`. -/
def fwdAux (n rank : List ℕ) (colLens : ℕ → ℕ) :
    ℕ → ℕ → ℕ → List ℕ → Except PyErr (List ℕ)
  | _, 0, _, acc => .ok acc
  | k, cnt + 1, rowLen, acc =>
    match forwardStepLen n rank k rowLen (colLens k) with
    | .error e => .error e
    | .ok r2 => fwdAux n rank colLens (k + 1) cnt r2 (acc ++ [r2])

/-- Row index set lengths after a full forward sweep. -/
def forwardSweep (n rank : List ℕ) (colLens : ℕ → ℕ) : Except PyErr (List ℕ) :=
  fwdAux n rank colLens 0 (n.length - 1) 1 [1]

/-- Shape-level backward sweep step (`right_left_ttcross_step`, lines
267-335, plus the core computation of lines 160-166) for mode `k`
(`2 <= k <= d`).  On success returns the shape assigned to
`factor_new[k-1]` and the length of the produced `next_col_idx`.  The final
reshape of the transposed skeleton is the one wrapped in try/except in the
source: its failure raises the rank-too-large ValueError; the earlier
reshape (line 318) is unguarded and raises a plain ValueError. -/
def backStepCore (n rank : List ℕ) (k : ℕ) (ext : List ℕ) : Except PyErr (List ℕ × ℕ) :=
  match reshapeTo ext [rank.getD (k - 1) 0, rank.getD k 0, n.getD (k - 1) 0] with
  | none => .error .valueError
  | some s1 =>
    match reshapeTo (transposeShape [0, 2, 1] s1)
        [rank.getD (k - 1) 0, n.getD (k - 1) 0 * rank.getD k 0] with
    | none => .error .valueError
    | some _ =>
      match reshapeTo
          [min (n.getD (k - 1) 0 * rank.getD k 0) (rank.getD (k - 1) 0),
            n.getD (k - 1) 0 * rank.getD k 0]
          [rank.getD (k - 1) 0, n.getD (k - 1) 0, rank.getD k 0] with
      | none => .error .rankTooLarge
      | some core =>
        .ok (core, min (n.getD (k - 1) 0 * rank.getD k 0) (rank.getD (k - 1) 0))

/-- Full backward sweep step: fiber-loop bound checks, then the
reshape/QR/maxvol chain on the extracted core. -/
def backStep (n rank : List ℕ) (d k rowLen colLen : ℕ) : Except PyErr (List ℕ × ℕ) :=
  if rank.getD (k - 1) 0 ≤ rowLen ∧ rank.getD k 0 ≤ colLen then
    backStepCore n rank k
      (if k = d then [rowLen, n.getD (d - 1) 0] else [rowLen * colLen, n.getD (k - 1) 0])
  else .error .indexError

/-- The backward sweep of lines 150-166: modes `k = d, d-1, ..., 2`, each
filling `factor_new[k-1]` and producing `col_idx[k-2]`.  The counter `i`
stands for `k - 1`; the accumulator collects the core shapes, ending in
ascending factor order `[factor 1, ..., factor (d-1)]`.  `col_idx[d-1]`
starts as `[()]`, of length 1. -/
def backSweepAux (n rank : List ℕ) (d : ℕ) (rowLens : List ℕ) :
    ℕ → ℕ → List (List ℕ) → Except PyErr (List (List ℕ) × ℕ)
  | 0, colLen, acc => .ok (acc, colLen)
  | i + 1, colLen, acc =>
    match backStep n rank d (i + 2) (rowLens.getD (i + 1) 0) colLen with
    | .error e => .error e
    | .ok (shape, colLen2) => backSweepAux n rank d rowLens i colLen2 (shape :: acc)

/-- Shape-level embedding of one full outer iteration (the iteration whose
`factor_new` is returned): forward sweep (lines 136-143), backward sweep
(lines 150-166), then the final core `factor_new[0]` (lines 169-175):
the slice `(slice(None),) + tuple(zip(*col_idx[0]))` has shape
`(n[0], len(col_idx[0]))`, is reshaped to `(n[0], 1, rank[1])` and
transposed by `(1, 0, 2)`.  Returns the list of the `d` core shapes. -/
def iterationShapes (n rank : List ℕ) (colLens : ℕ → ℕ) :
    Except PyErr (List (List ℕ)) :=
  match forwardSweep n rank colLens with
  | .error e => .error e
  | .ok rowLens =>
    match backSweepAux n rank n.length rowLens (n.length - 1) 1 [] with
    | .error e => .error e
    | .ok (tailCores, colLen0) =>
      match reshapeTo [n.getD 0 0, colLen0] [n.getD 0 0, 1, rank.getD 1 0] with
      | none => .error .valueError
      | some s => .ok (transposeShape [1, 0, 2] s :: tailCores)

/-! ### Index unravelling of the forward sweep (source lines 261-262) -/

/-- Row-major multi-index of a flat index (the arithmetic core of numpy
`unravel_index`). -/
def unravelGo : ℕ → List ℕ → List ℕ
  | _, [] => []
  | i, _ :: ds => i / ds.prod :: unravelGo (i % ds.prod) ds

/-- numpy `unravel_index` for a flat index `i` into a row-major shape,
raising when `i` is out of range. -/
def unravelIndex (i : ℕ) (dims : List ℕ) : Option (List ℕ) :=
  if i < dims.prod then some (unravelGo i dims) else none

/-- Line 261-262 of the source, for a single selected flat row position
`i`: unravel `i` over `(rank[k], n[k])` into `(a, b)` and return
`row_idx[k][a] + (b,)`. -/
def nextRowIdxEntry (rowIdxK : List (List ℕ)) (rk nk i : ℕ) : Option (List ℕ) :=
  match unravelIndex i [rk, nk] with
  | some [a, b] =>
    if a < rowIdxK.length then some (rowIdxK.getD a [] ++ [b]) else none
  | _ => none

/-! ### Random initialisation (source lines 6 and 108-121)

The module-level random source (`rng = check_random_state(1)`) is modelled
by a stream `s : Nat -> Nat` read at successive positions `t`;
`rng.randint(b)` reads `s t % b` and, like numpy, raises a ValueError when
`b = 0`.  `RngRes` distinguishes a completed run (with the next unread
position), a raised exception, and an exhausted fuel budget (`spin`, a loop
that has not terminated). -/

/-- Result of a fueled randomised computation. -/
inductive RngRes (α : Type) : Type
  | ok : α → ℕ → RngRes α
  | err : PyErr → RngRes α
  | spin : RngRes α
deriving DecidableEq, Repr

/-- Line 113/115: draw one candidate multi-index,
`tuple(rng.randint(n[j]) for j in range(k+1, d))`, reading one stream
position per mode; `bs` is the list of the relevant mode sizes. -/
def drawIdx (s : ℕ → ℕ) : ℕ → List ℕ → Except PyErr (List ℕ × ℕ)
  | t, [] => .ok ([], t)
  | t, b :: bs =>
    if b = 0 then .error .valueError
    else match drawIdx s (t + 1) bs with
         | .error e => .error e
         | .ok (v, t2) => .ok (s t % b :: v, t2)

/-- Lines 113-115: draw, and redraw while the candidate is already in
`col_idx[k]` (the duplicate-rejecting while-loop). -/
def drawDistinct (s : ℕ → ℕ) (bs : List ℕ) (seen : List (List ℕ)) :
    ℕ → ℕ → RngRes (List ℕ)
  | 0, _ => .spin
  | fuel + 1, t =>
    match drawIdx s t bs with
    | .error e => .err e
    | .ok (v, t2) => if v ∈ seen then drawDistinct s bs seen fuel t2 else .ok v t2

/-- Line 112: the `for i in range(rank[k_col_idx + 1])` loop appending
`count` distinct multi-indices to `col_idx[k]`. -/
def fillSet (s : ℕ → ℕ) (bs : List ℕ) (fuel : ℕ) :
    ℕ → ℕ → List (List ℕ) → RngRes (List (List ℕ))
  | 0, t, acc => .ok acc t
  | count + 1, t, acc =>
    match drawDistinct s bs acc fuel t with
    | .spin => .spin
    | .err e => .err e
    | .ok v t2 => fillSet s bs fuel count t2 (acc ++ [v])

/-- Lines 109-117: the `for k_col_idx in range(d - 1)` loop; mode `k` draws
`rank[k+1]` distinct multi-indices over the mode sizes `n[k+1..d-1]`. -/
def initColAux (s : ℕ → ℕ) (n rank : List ℕ) (fuel : ℕ) :
    ℕ → ℕ → ℕ → List (List (List ℕ)) → RngRes (List (List (List ℕ)))
  | _, 0, t, acc => .ok acc t
  | k, cnt + 1, t, acc =>
    match fillSet s (n.drop (k + 1)) fuel (rank.getD (k + 1) 0) t [] with
    | .spin => .spin
    | .err e => .err e
    | .ok set t2 => initColAux s n rank fuel (k + 1) cnt t2 (acc ++ [set])

/-- The full column index initialisation of lines 108-117. -/
def initColIdx (s : ℕ → ℕ) (n rank : List ℕ) (fuel : ℕ) :
    RngRes (List (List (List ℕ))) :=
  initColAux s n rank fuel 0 (n.length - 1) 0 []

/-- `rng.random_sample(shape)`: read `count` consecutive stream values. -/
def sampleFlat (s : ℕ → ℕ) : ℕ → ℕ → List ℕ × ℕ
  | 0, t => ([], t)
  | count + 1, t =>
    (s t :: (sampleFlat s count (t + 1)).1, (sampleFlat s count (t + 1)).2)

/-- Line 121: the random initial cores, `factor_new[k]` being a sample of
`rank[k] * n[k] * rank[k+1]` values (kept flat: only the consumed values
matter to the determinism claim). -/
def initFactorsAux (s : ℕ → ℕ) (n rank : List ℕ) :
    ℕ → ℕ → ℕ → List (List ℕ) → List (List ℕ) × ℕ
  | _, 0, t, acc => (acc, t)
  | k, cnt + 1, t, acc =>
    initFactorsAux s n rank (k + 1) cnt
      (sampleFlat s (rank.getD k 0 * n.getD k 0 * rank.getD (k + 1) 0) t).2
      (acc ++ [(sampleFlat s (rank.getD k 0 * n.getD k 0 * rank.getD (k + 1) 0) t).1])

/-- The whole random initialisation performed by
`matrix_product_state_cross` (lines 108-121): the column index sets, then
the random initial cores. -/
def initAll (s : ℕ → ℕ) (n rank : List ℕ) (fuel : ℕ) :
    RngRes (List (List (List ℕ)) × List (List ℕ)) :=
  match initColIdx s n rank fuel with
  | .spin => .spin
  | .err e => .err e
  | .ok cols t =>
    .ok (cols, (initFactorsAux s n rank 0 n.length t []).1)
      (initFactorsAux s n rank 0 n.length t []).2

/-- Pointwise validity of a drawn multi-index: one coordinate per mode,
each strictly below the mode size. -/
def validTup : List ℕ → List ℕ → Bool
  | [], [] => true
  | b :: bs, h :: tl => decide (h < b) && validTup bs tl
  | _, _ => false

/-- Mixed-radix flat encoding of a multi-index (row-major). -/
def encodeTup : List ℕ → List ℕ → ℕ
  | _, [] => 0
  | [], _ => 0
  | _ :: bs, h :: tl => h * bs.prod + encodeTup bs tl

/-! ## Helper lemmas -/

theorem reshapeTo_some {src tgt out : List ℕ} (h : reshapeTo src tgt = some out) : out = tgt := by
  unfold reshapeTo at h
  split at h
  · exact (Option.some.inj h).symm
  · exact absurd h (by simp)

theorem reshapeTo_none {src tgt : List ℕ} (h : reshapeTo src tgt = none) :
    src.prod ≠ tgt.prod := by
  unfold reshapeTo at h
  split at h
  · exact absurd h (by simp)
  · assumption

theorem backStepCore_ok_shape {n rank : List ℕ} {k : ℕ} {ext shape : List ℕ} {r2 : ℕ}
    (h : backStepCore n rank k ext = .ok (shape, r2)) :
    shape = [rank.getD (k - 1) 0, n.getD (k - 1) 0, rank.getD k 0] := by
  unfold backStepCore at h
  split at h
  case h_1 => exact absurd h (by simp)
  case h_2 s1 hext =>
    split at h
    case h_1 => exact absurd h (by simp)
    case h_2 s3 hmid =>
      split at h
      case h_1 => exact absurd h (by simp)
      case h_2 core hcore =>
        have hc := reshapeTo_some hcore
        simp only [Except.ok.injEq, Prod.mk.injEq] at h
        rw [← h.1, hc]

theorem backStep_ok_shape {n rank : List ℕ} {d k rowLen colLen : ℕ} {shape : List ℕ} {r2 : ℕ}
    (h : backStep n rank d k rowLen colLen = .ok (shape, r2)) :
    shape = [rank.getD (k - 1) 0, n.getD (k - 1) 0, rank.getD k 0] := by
  unfold backStep at h
  split at h
  case isFalse => exact absurd h (by simp)
  case isTrue => exact backStepCore_ok_shape h

theorem backStepCore_rtl_iff (n rank : List ℕ) (k : ℕ) (ext : List ℕ) :
    backStepCore n rank k ext = .error .rankTooLarge ↔
      ext.prod = rank.getD (k - 1) 0 * rank.getD k 0 * n.getD (k - 1) 0 ∧
      0 < n.getD (k - 1) 0 * rank.getD k 0 ∧
      n.getD (k - 1) 0 * rank.getD k 0 < rank.getD (k - 1) 0 := by
  have hlist : ([rank.getD (k - 1) 0, rank.getD k 0, n.getD (k - 1) 0] : List ℕ).prod =
      rank.getD (k - 1) 0 * rank.getD k 0 * n.getD (k - 1) 0 := by
    simp [mul_assoc]
  by_cases hprod : ext.prod = rank.getD (k - 1) 0 * rank.getD k 0 * n.getD (k - 1) 0
  case neg =>
    have hnone : reshapeTo ext
        [rank.getD (k - 1) 0, rank.getD k 0, n.getD (k - 1) 0] = none := by
      unfold reshapeTo
      rw [if_neg]
      rw [hlist]
      exact hprod
    simp only [backStepCore, hnone]
    constructor
    · intro h
      exact absurd h (by simp)
    · rintro ⟨h1, _⟩
      exact absurd h1 hprod
  case pos =>
    have hsome : reshapeTo ext
        [rank.getD (k - 1) 0, rank.getD k 0, n.getD (k - 1) 0] =
        some [rank.getD (k - 1) 0, rank.getD k 0, n.getD (k - 1) 0] := by
      unfold reshapeTo
      rw [if_pos]
      rw [hlist]
      exact hprod
    have hmid : reshapeTo
        (transposeShape [0, 2, 1] [rank.getD (k - 1) 0, rank.getD k 0, n.getD (k - 1) 0])
        [rank.getD (k - 1) 0, n.getD (k - 1) 0 * rank.getD k 0] =
        some [rank.getD (k - 1) 0, n.getD (k - 1) 0 * rank.getD k 0] := by
      unfold reshapeTo
      rw [if_pos]
      simp [transposeShape]
    by_cases hm : 0 < n.getD (k - 1) 0 * rank.getD k 0 ∧
        n.getD (k - 1) 0 * rank.getD k 0 < rank.getD (k - 1) 0
    case pos =>
      have hfcond : ¬ (([min (n.getD (k - 1) 0 * rank.getD k 0) (rank.getD (k - 1) 0),
          n.getD (k - 1) 0 * rank.getD k 0] : List ℕ).prod =
          ([rank.getD (k - 1) 0, n.getD (k - 1) 0, rank.getD k 0] : List ℕ).prod) := by
        simp only [List.prod_cons, List.prod_nil, mul_one,
          min_eq_left (le_of_lt hm.2)]
        intro heq
        have h2 := Nat.eq_of_mul_eq_mul_right hm.1 heq
        omega
      have hfin : reshapeTo
          [min (n.getD (k - 1) 0 * rank.getD k 0) (rank.getD (k - 1) 0),
            n.getD (k - 1) 0 * rank.getD k 0]
          [rank.getD (k - 1) 0, n.getD (k - 1) 0, rank.getD k 0] = none := by
        unfold reshapeTo
        rw [if_neg hfcond]
      simp only [backStepCore, hsome, hmid, hfin]
      exact ⟨fun _ => ⟨hprod, hm.1, hm.2⟩, fun _ => by trivial⟩
    case neg =>
      have hocond : ([min (n.getD (k - 1) 0 * rank.getD k 0) (rank.getD (k - 1) 0),
          n.getD (k - 1) 0 * rank.getD k 0] : List ℕ).prod =
          ([rank.getD (k - 1) 0, n.getD (k - 1) 0, rank.getD k 0] : List ℕ).prod := by
        simp only [List.prod_cons, List.prod_nil, mul_one]
        rcases Nat.eq_zero_or_pos (n.getD (k - 1) 0 * rank.getD k 0) with h0 | h0
        · rw [h0]
          simp
        · have hle : rank.getD (k - 1) 0 ≤ n.getD (k - 1) 0 * rank.getD k 0 := by
            rcases Nat.lt_or_ge (n.getD (k - 1) 0 * rank.getD k 0) (rank.getD (k - 1) 0)
              with hlt | hge
            · exact absurd ⟨h0, hlt⟩ hm
            · exact hge
          rw [min_eq_right hle]
      have hok : reshapeTo
          [min (n.getD (k - 1) 0 * rank.getD k 0) (rank.getD (k - 1) 0),
            n.getD (k - 1) 0 * rank.getD k 0]
          [rank.getD (k - 1) 0, n.getD (k - 1) 0, rank.getD k 0] =
          some [rank.getD (k - 1) 0, n.getD (k - 1) 0, rank.getD k 0] := by
        unfold reshapeTo
        rw [if_pos hocond]
      simp only [backStepCore, hsome, hmid, hok]
      constructor
      · intro h
        exact absurd h (by simp)
      · rintro ⟨_, h2, h3⟩
        exact absurd ⟨h2, h3⟩ hm

theorem backSweepAux_ok {n rank : List ℕ} {d : ℕ} {rowLens : List ℕ} :
    ∀ (i colLen : ℕ) (acc L : List (List ℕ)) (cfin : ℕ),
      backSweepAux n rank d rowLens i colLen acc = .ok (L, cfin) →
      L = (List.range i).map
            (fun j => [rank.getD (j + 1) 0, n.getD (j + 1) 0, rank.getD (j + 2) 0]) ++ acc
  | 0, colLen, acc, L, cfin, h => by
      simp only [backSweepAux, Except.ok.injEq, Prod.mk.injEq] at h
      simp [← h.1]
  | i + 1, colLen, acc, L, cfin, h => by
      unfold backSweepAux at h
      split at h
      · exact absurd h (by simp)
      · rename_i shape colLen2 hstep
        have hs := backStep_ok_shape hstep
        have ih := backSweepAux_ok i colLen2 (shape :: acc) L cfin h
        rw [ih, hs, List.range_succ, List.map_append, List.append_assoc]
        simp

theorem getD_map_range {α : Type} (m : ℕ) (f : ℕ → α) (dflt : α) :
    ∀ j, j < m → ((List.range m).map f).getD j dflt = f j := by
  intro j hj
  rw [List.getD_eq_getElem?_getD, List.getElem?_map, List.getElem?_range hj]
  rfl

theorem crossLoopAux_noBreak {σ : Type} (err thr : σ → ℚ) (step : σ → σ) :
    ∀ (r j : ℕ) (s : σ),
      (∀ m, m < r → ¬ err (step^[m] s) < thr (step^[m] s)) →
      crossLoopAux err thr step r j s = (j + r - 1, step^[r] s)
  | 0, j, s, _ => by simp [crossLoopAux]
  | r + 1, j, s, h => by
      have h0 := h 0 (Nat.succ_pos r)
      simp only [Function.iterate_zero, id_eq] at h0
      rw [crossLoopAux, if_neg h0,
        crossLoopAux_noBreak err thr step r (j + 1) (step s)
          (fun m hm => by
            have := h (m + 1) (Nat.succ_lt_succ hm)
            rwa [Function.iterate_succ_apply] at this)]
      have hj : j + 1 + r - 1 = j + (r + 1) - 1 := by omega
      rw [hj, ← Function.iterate_succ_apply]

theorem crossLoopAux_fst_le {σ : Type} (err thr : σ → ℚ) (step : σ → σ) :
    ∀ (r j : ℕ) (s : σ), (crossLoopAux err thr step r j s).1 ≤ j + r - 1
  | 0, j, s => by simp [crossLoopAux]
  | r + 1, j, s => by
      rw [crossLoopAux]
      split
      · dsimp only
        omega
      · have := crossLoopAux_fst_le err thr step r (j + 1) (step s)
        omega

/-! ## The claims -/

/-- Claim C1 (code_bug evidence): the rank normalisation of lines 94-103
does not clamp `rank[-1]`.  On profile `[1,3,3,2]` the code emits the
notice announcing that `rank[-1]` is being set to 1 (even formatting it
with the value of `rank[0]`, here 1), yet returns the profile unchanged
with `rank[-1] = 2`, contradicting the claim that boundary values other
than 1 are clamped to 1. -/
theorem initRank_last_not_clamped :
    (initRank [1, 3, 3, 2]).1 = [1, 3, 3, 2] ∧
    (initRank [1, 3, 3, 2]).1.getLastD 0 ≠ 1 ∧
    (initRank [1, 3, 3, 2]).2 = [Notice.lastFlagged 1] :=
  ⟨rfl, by decide, rfl⟩

/-- Claim C2 (code_bug evidence): the matrix `A = [[1,0],[-1,0],[0,1]]`
has full column rank (its rows 0 and 2 form an invertible 2x2 submatrix),
yet `maxvol` selects rows `[0, 1]`, whose submatrix `[[1,0],[-1,0]]` is
singular, so the final `tl.inverse` raises instead of returning the
promised 2 distinct rows together with the inverse.  (The correct
orthogonal deflation would have annihilated row 1 after row 0 was picked;
the rescaling actually implemented doubles it instead, see C3.) -/
theorem maxvol_fullrank_singular_selection :
    detG (subRows [[(1 : ℚ), 0], [-1, 0], [0, 1]] [0, 2]) ≠ 0 ∧
    maxvolLoop [[(1 : ℚ), 0], [-1, 0], [0, 1]] 2 9
      (mvInit [[(1 : ℚ), 0], [-1, 0], [0, 1]]) = some (.ok [0, 1]) ∧
    detG (subRows [[(1 : ℚ), 0], [-1, 0], [0, 1]] [0, 1]) = 0 ∧
    maxvolRun [[(1 : ℚ), 0], [-1, 0], [0, 1]] 9 = some (.error .linAlgError) := by
  refine ⟨?_, ?_, ?_, ?_⟩
  · norm_num [detG, detFuel, pivotSplit, subRows]
  · norm_num [maxvolLoop, maxvolStep, mvInit, normSq, dotL, argmaxQ, argmaxAux, ratSqrt]
  · norm_num [detG, detFuel, pivotSplit, subRows]
  · norm_num [maxvolRun, maxvolLoop, maxvolStep, mvInit, normSq, dotL, argmaxQ, argmaxAux,
      ratSqrt, subRows, detG, detFuel, pivotSplit]

/-- Claim C3 (code_bug evidence): one iteration of the maxvol loop on
`A = [[3,4],[0,5]]` picks row 0 (first maximum of the squared norms
`[25, 25]`) and replaces the remaining row `v = (0,5)` by `(0,1)`, i.e. by
`v * (1 - dot(v,pick)/(normv*normpick))`, a rescaling of `v` — not by the
orthogonal-projection removal `v - (dot(v,pick)/normSq pick) * pick`
claimed by the spec (and by the comments in the source), which would give
`(-12/5, 9/5)`. -/
theorem maxvol_deflation_not_projection :
    maxvolStep [[(3 : ℚ), 4], [0, 5]] (mvInit [[(3 : ℚ), 4], [0, 5]]) =
      .ok { Anew := [[0, 1]], rest := [1], chosen := [0] } ∧
    ([(0 : ℚ), 1] : List ℚ) ≠
      [0 - dotL [0, 5] [3, 4] / normSq [3, 4] * 3,
       5 - dotL [0, 5] [3, 4] / normSq [3, 4] * 4] := by
  constructor
  · norm_num [maxvolStep, mvInit, normSq, dotL, argmaxQ, argmaxAux, ratSqrt]
  · norm_num [dotL, normSq]

/-- Claim C4 (counterexample): on the full-column-rank input of C2 the
selected submatrix is singular, and what the inversion raises is the
(uncaught) `LinAlgError` — not the rank-too-large ValueError, which the
source only raises from the try/except around the skeleton reshape. -/
theorem maxvol_singular_raises_linalg_not_ranktoolarge :
    maxvolRun [[(1 : ℚ), 0], [-1, 0], [0, 1]] 9 = some (.error .linAlgError) ∧
    PyErr.linAlgError ≠ PyErr.rankTooLarge := by
  constructor
  · norm_num [maxvolRun, maxvolLoop, maxvolStep, mvInit, normSq, dotL, argmaxQ, argmaxAux,
      ratSqrt, subRows, detG, detFuel, pivotSplit]
  · decide

/-- Claim C4 (amended): in the backward sweep step, the rank-too-large
error is raised exactly when the fiber extraction succeeded, the unguarded
reshape of line 318 succeeded, and the final reshape of the transposed
skeleton `Q_skeleton` to `(rank[k-1], n[k-1], rank[k])` fails — i.e.
exactly when `0 < n[k-1]*rank[k] < rank[k-1]`, the QR factor having fewer
columns than `rank[k-1]`.  Singularity of the maxvol submatrix plays no
role (it raises `LinAlgError`, see the counterexample). -/
theorem rankTooLarge_iff_skeleton_reshape_fails (n rank : List ℕ) (d k rowLen colLen : ℕ) :
    backStep n rank d k rowLen colLen = .error .rankTooLarge ↔
      (rank.getD (k - 1) 0 ≤ rowLen ∧ rank.getD k 0 ≤ colLen) ∧
      (if k = d then rowLen * n.getD (d - 1) 0 else rowLen * colLen * n.getD (k - 1) 0) =
        rank.getD (k - 1) 0 * rank.getD k 0 * n.getD (k - 1) 0 ∧
      0 < n.getD (k - 1) 0 * rank.getD k 0 ∧
      n.getD (k - 1) 0 * rank.getD k 0 < rank.getD (k - 1) 0 := by
  constructor
  · intro h
    unfold backStep at h
    split at h
    case isFalse => exact absurd h (by simp)
    case isTrue hbnd =>
      obtain ⟨hprod, hm0, hmlt⟩ := (backStepCore_rtl_iff n rank k _).mp h
      refine ⟨hbnd, ?_, hm0, hmlt⟩
      rcases em (k = d) with hkd | hkd
      · rw [if_pos hkd] at hprod ⊢
        simpa using hprod
      · rw [if_neg hkd] at hprod ⊢
        simpa using hprod
  · rintro ⟨hbnd, hprod, hm0, hmlt⟩
    unfold backStep
    rw [if_pos hbnd]
    apply (backStepCore_rtl_iff n rank k _).mpr
    refine ⟨?_, hm0, hmlt⟩
    rcases em (k = d) with hkd | hkd
    · rw [if_pos hkd] at hprod ⊢
      simpa using hprod
    · rw [if_neg hkd] at hprod ⊢
      simpa using hprod

/-- Witness for `rankTooLarge_iff_skeleton_reshape_fails`: shape `(2,2)`,
profile with `rank[1] = 5 > n[1]*rank[2] = 2`, at the backward step
`k = d = 2` with `row_idx[1]` of length 5 and `col_idx[1] = [()]`. -/
theorem rankTooLarge_iff_skeleton_reshape_fails_witness :
    backStep [2, 2] [9, 5, 1] 2 2 5 1 = .error .rankTooLarge :=
  (rankTooLarge_iff_skeleton_reshape_fails [2, 2] [9, 5, 1] 2 2 5 1).mpr
    (by refine ⟨⟨?_, ?_⟩, ?_, ?_, ?_⟩ <;> decide)

/-- Claim C5 (code_bug evidence): a 3-dimensional tensor with a rank list
of length 2 raises the length-mismatch ValueError immediately, but the
message reports the pair `(len(rank), d) = (2, 3)`: the slot that the
message text announces as `tl.ndim(tensor) + 1` is formatted with `d = 3`,
not with `d + 1 = 4` as the claim states. -/
theorem rank_length_error_reports_d :
    checkRank 3 (.list [1, 2]) = .error (2, 3) ∧ (3 : ℕ) ≠ 3 + 1 := ⟨rfl, by decide⟩

/-- Claim C6 (counterexample): with `max_iterations = 1` and the error
permanently EQUAL to the threshold, the loop runs its full iteration
budget without the convergence condition `error < threshold` ever holding,
yet `crossLoop` returns the factors instead of failing: the final re-check
only fires on a STRICT excess, and the dedicated maximum-iterations check
compares the Python loop variable (which ends at `n_iter_max - 1`) against
`n_iter_max`, so it cannot fire either. -/
theorem loop_exhaustion_equal_threshold_returns :
    crossLoop 1 (fun s : Unit => s) (fun _ => (1 : ℚ)) (fun _ => (1 : ℚ)) () = .ok () ∧
    ¬ ((1 : ℚ) < 1) := ⟨rfl, by norm_num⟩

/-- Claim C6 (amended): if the loop runs its `n >= 1` iterations without
`error < threshold` ever holding AND the final error differs from the
final threshold, the run fails with the did-not-converge error; moreover
for `n >= 1` the maximum-iterations error is unreachable on every state. -/
theorem loop_exhaustion_convergence_error {σ : Type} (n : ℕ) (step : σ → σ)
    (err thr : σ → ℚ) (s0 : σ) (hn : 1 ≤ n)
    (hnc : ∀ j, j ≤ n → ¬ err (step^[j] s0) < thr (step^[j] s0))
    (hne : err (step^[n] s0) ≠ thr (step^[n] s0)) :
    crossLoop n step err thr s0 = .error .notConvergedError ∧
    ∀ s : σ, crossLoop n step err thr s ≠ .error .maxIterError := by
  constructor
  · unfold crossLoop
    rw [if_neg (by omega : ¬ n = 0),
      crossLoopAux_noBreak err thr step n 0 s0 (fun m hm => hnc m (le_of_lt hm))]
    have hle : thr (step^[n] s0) ≤ err (step^[n] s0) := le_of_not_lt (hnc n le_rfl)
    rw [if_neg (by simpa using by omega : ¬ n ≤ 0 + n - 1),
      if_pos (lt_of_le_of_ne hle (fun he => hne he.symm))]
  · intro s
    unfold crossLoop
    rw [if_neg (by omega : ¬ n = 0)]
    have := crossLoopAux_fst_le err thr step n 0 s
    rw [if_neg (by omega)]
    split <;> simp

/-- Witness for `loop_exhaustion_convergence_error` at `n = 1`, constant
error 2 and threshold 1. -/
theorem loop_exhaustion_convergence_error_witness :
    crossLoop 1 (fun s : Unit => s) (fun _ => (2 : ℚ)) (fun _ => (1 : ℚ)) () =
      .error .notConvergedError ∧
    ∀ s : Unit, crossLoop 1 (fun u : Unit => u) (fun _ => (2 : ℚ)) (fun _ => (1 : ℚ)) s ≠
      .error .maxIterError :=
  loop_exhaustion_convergence_error 1 (fun u : Unit => u) (fun _ => (2 : ℚ))
    (fun _ => (1 : ℚ)) () le_rfl (fun j _ => by norm_num) (by norm_num)

/-- Claim C7 (confirmed, at the shape level): whenever one full outer
iteration completes — every reshape of the backward sweep and of the
final-core computation succeeding — the `d` produced cores have shapes
`(rank[k], n[k], rank[k+1])` for the rank profile actually used (the
caller profile with `rank[0]` clamped to 1).  `colLens` gives the lengths
of the column index sets the iteration starts from. -/
theorem cores_shape_invariant (n rankRaw : List ℕ) (colLens : ℕ → ℕ)
    (shapes : List (List ℕ)) (hd : 1 ≤ n.length)
    (hlen : rankRaw.length = n.length + 1)
    (h : iterationShapes n (initRankShapes rankRaw) colLens = .ok shapes) :
    shapes.length = n.length ∧
    ∀ k, k < n.length →
      shapes.getD k [] = [(initRankShapes rankRaw).getD k 0, n.getD k 0,
        (initRankShapes rankRaw).getD (k + 1) 0] := by
  unfold iterationShapes at h
  split at h
  case h_1 => exact absurd h (by simp)
  case h_2 rowLens hf =>
  split at h
  next => exact absurd h (by simp)
  next tailCores colLen0 hb =>
  split at h
  next => exact absurd h (by simp)
  next s hr =>
  have hs := reshapeTo_some hr
  subst hs
  have htail := backSweepAux_ok (n.length - 1) 1 [] tailCores colLen0 hb
  simp only [List.append_nil] at htail
  have hshapes : shapes =
      [1, n.getD 0 0, (initRankShapes rankRaw).getD 1 0] ::
        (List.range (n.length - 1)).map
          (fun j => [(initRankShapes rankRaw).getD (j + 1) 0, n.getD (j + 1) 0,
            (initRankShapes rankRaw).getD (j + 2) 0]) := by
    have := Except.ok.inj h
    rw [← this, htail]
    rfl
  subst hshapes
  constructor
  · simp
    omega
  · intro k hk
    match k with
    | 0 =>
      obtain ⟨a, t, rfl⟩ : ∃ a t, rankRaw = a :: t := by
        cases rankRaw with
        | nil => simp at hlen
        | cons a t => exact ⟨a, t, rfl⟩
      simp [initRankShapes]
    | j + 1 =>
      have hj : j < n.length - 1 := by omega
      simp only [List.getD_cons_succ]
      rw [getD_map_range _ _ _ j hj]

/-- Witness for `cores_shape_invariant`: the 2x2 tensor with caller
profile `[1,2,1]` and both initial column index sets of length 2. -/
theorem cores_shape_invariant_witness :
    ([[1, 2, 2], [2, 2, 1]] : List (List ℕ)).length = ([2, 2] : List ℕ).length ∧
    ∀ k, k < ([2, 2] : List ℕ).length →
      ([[1, 2, 2], [2, 2, 1]] : List (List ℕ)).getD k [] =
        [(initRankShapes [1, 2, 1]).getD k 0, ([2, 2] : List ℕ).getD k 0,
          (initRankShapes [1, 2, 1]).getD (k + 1) 0] :=
  cores_shape_invariant [2, 2] [1, 2, 1] (fun _ => 2) [[1, 2, 2], [2, 2, 1]]
    (by decide) (by decide) rfl

/-- Claim C8 (confirmed): for a flat row position `i` selected by maxvol
from the `(rank[k]*n[k]) x rank[k+1]` orthogonal factor, unravelling over
`(rank[k], n[k])` yields exactly `(i div n[k], i mod n[k])`, and the new
row multi-index is `row_idx[k][i div n[k]]` with `i mod n[k]` appended. -/
theorem forward_unravel_next_row_idx (rowIdxK : List (List ℕ)) (rk nk i : ℕ)
    (hi : i < rk * nk) (hlen : rowIdxK.length = rk) :
    unravelIndex i [rk, nk] = some [i / nk, i % nk] ∧
    nextRowIdxEntry rowIdxK rk nk i =
      some (rowIdxK.getD (i / nk) [] ++ [i % nk]) := by
  have hnk : 0 < nk := by
    rcases Nat.eq_zero_or_pos nk with h0 | h0
    · subst h0; simp at hi
    · exact h0
  have hdiv : i / nk < rk := Nat.div_lt_of_lt_mul (by rwa [mul_comm] at hi)
  have hur : unravelIndex i [rk, nk] = some [i / nk, i % nk] := by
    unfold unravelIndex
    rw [if_pos (by simpa [mul_assoc] using hi)]
    simp [unravelGo]
  refine ⟨hur, ?_⟩
  unfold nextRowIdxEntry
  rw [hur]
  simp [hlen, hdiv]

/-- Witness for `forward_unravel_next_row_idx` at `rk = 2`, `nk = 3`,
`i = 5`. -/
theorem forward_unravel_next_row_idx_witness :
    unravelIndex 5 [2, 3] = some [5 / 3, 5 % 3] ∧
    nextRowIdxEntry [[0], [1]] 2 3 5 =
      some (([[0], [1]] : List (List ℕ)).getD (5 / 3) [] ++ [5 % 3]) :=
  forward_unravel_next_row_idx [[0], [1]] 2 3 5 (by decide) (by decide)

/-! ## Determinism of the random initialisation (claim C9)

The only stateful collaborator of `matrix_product_state_cross` is the
random source; everything after the initialisation of lines 108-121 is a
pure computation.  The lemmas below show that the initialisation is a
function of the stream content it actually reads: its result is unchanged
under any stream that agrees on the consumed positions. -/

theorem sampleFlat_snd (s : ℕ → ℕ) : ∀ c t : ℕ, (sampleFlat s c t).2 = t + c
  | 0, t => by simp [sampleFlat]
  | c + 1, t => by
      have ih := sampleFlat_snd s c (t + 1)
      simp only [sampleFlat]
      omega

theorem sampleFlat_agree (s₁ s₂ : ℕ → ℕ) : ∀ c t : ℕ,
    (∀ u, t ≤ u → u < t + c → s₁ u = s₂ u) → sampleFlat s₁ c t = sampleFlat s₂ c t
  | 0, _, _ => rfl
  | c + 1, t, hag => by
      simp only [sampleFlat]
      rw [sampleFlat_agree s₁ s₂ c (t + 1) (fun u h1 h2 => hag u (by omega) (by omega)),
        hag t le_rfl (by omega)]

theorem drawIdx_ok_snd (s : ℕ → ℕ) : ∀ (bs : List ℕ) (t : ℕ) {v : List ℕ} {t2 : ℕ},
    drawIdx s t bs = .ok (v, t2) → t2 = t + bs.length
  | [], t, v, t2, h => by
      simp only [drawIdx, Except.ok.injEq, Prod.mk.injEq] at h
      simp
      omega
  | b :: bs, t, v, t2, h => by
      simp only [drawIdx] at h
      split at h
      · exact absurd h (by simp)
      · split at h
        · exact absurd h (by simp)
        · rename_i v1 t1 hrec
          have ih := drawIdx_ok_snd s bs (t + 1) hrec
          simp only [Except.ok.injEq, Prod.mk.injEq] at h
          simp only [List.length_cons]
          omega

theorem drawIdx_agree (s₁ s₂ : ℕ → ℕ) : ∀ (bs : List ℕ) (t : ℕ),
    (∀ u, t ≤ u → u < t + bs.length → s₁ u = s₂ u) →
    drawIdx s₁ t bs = drawIdx s₂ t bs
  | [], _, _ => rfl
  | b :: bs, t, hag => by
      simp only [drawIdx]
      split
      · rfl
      · rw [drawIdx_agree s₁ s₂ bs (t + 1)
            (fun u h1 h2 => hag u (by omega) (by simp only [List.length_cons]; omega)),
          hag t le_rfl (by simp only [List.length_cons]; omega)]

theorem drawDistinct_ok_le (s : ℕ → ℕ) (bs : List ℕ) (seen : List (List ℕ)) :
    ∀ (fuel t : ℕ) {v : List ℕ} {t2 : ℕ},
      drawDistinct s bs seen fuel t = .ok v t2 → t + bs.length ≤ t2
  | 0, t, v, t2, h => by simp [drawDistinct] at h
  | fuel + 1, t, v, t2, h => by
      simp only [drawDistinct] at h
      split at h
      · exact absurd h (by simp)
      · rename_i v1 t1 hdi
        have ht1 := drawIdx_ok_snd s bs t hdi
        split at h
        · have := drawDistinct_ok_le s bs seen fuel t1 h
          omega
        · simp only [RngRes.ok.injEq] at h
          omega

theorem drawDistinct_agree (s₁ s₂ : ℕ → ℕ) (bs : List ℕ) (seen : List (List ℕ)) :
    ∀ (fuel t : ℕ) {v : List ℕ} {t2 : ℕ},
      drawDistinct s₁ bs seen fuel t = .ok v t2 →
      (∀ u, t ≤ u → u < t2 → s₁ u = s₂ u) →
      drawDistinct s₂ bs seen fuel t = .ok v t2
  | 0, t, v, t2, h, _ => by simp [drawDistinct] at h
  | fuel + 1, t, v, t2, h, hag => by
      simp only [drawDistinct] at h ⊢
      split at h
      · exact absurd h (by simp)
      · rename_i v1 t1 hdi
        have ht1 := drawIdx_ok_snd s₁ bs t hdi
        have hlen : t + bs.length ≤ t2 := by
          split at h
          · have := drawDistinct_ok_le s₁ bs seen fuel t1 h
            omega
          · simp only [RngRes.ok.injEq] at h
            omega
        have hd2 : drawIdx s₂ t bs = .ok (v1, t1) := by
          rw [← drawIdx_agree s₁ s₂ bs t (fun u h1 h2 => hag u h1 (by omega))]
          exact hdi
        simp only [hd2]
        split at h <;> rename_i hmem
        · rw [if_pos hmem]
          exact drawDistinct_agree s₁ s₂ bs seen fuel t1 h
            (fun u h1 h2 => hag u (by omega) h2)
        · rw [if_neg hmem]
          exact h

theorem fillSet_ok_le (s : ℕ → ℕ) (bs : List ℕ) (fuel : ℕ) :
    ∀ (count t : ℕ) (acc : List (List ℕ)) {set : List (List ℕ)} {t2 : ℕ},
      fillSet s bs fuel count t acc = .ok set t2 → t ≤ t2
  | 0, t, acc, set, t2, h => by
      simp only [fillSet, RngRes.ok.injEq] at h
      omega
  | count + 1, t, acc, set, t2, h => by
      simp only [fillSet] at h
      split at h
      · exact absurd h (by simp)
      · exact absurd h (by simp)
      · rename_i v1 t1 hdd
        have h1 := drawDistinct_ok_le s bs acc fuel t hdd
        have h2 := fillSet_ok_le s bs fuel count t1 (acc ++ [v1]) h
        omega

theorem fillSet_agree (s₁ s₂ : ℕ → ℕ) (bs : List ℕ) (fuel : ℕ) :
    ∀ (count t : ℕ) (acc : List (List ℕ)) {set : List (List ℕ)} {t2 : ℕ},
      fillSet s₁ bs fuel count t acc = .ok set t2 →
      (∀ u, t ≤ u → u < t2 → s₁ u = s₂ u) →
      fillSet s₂ bs fuel count t acc = .ok set t2
  | 0, _, _, _, _, h, _ => h
  | count + 1, t, acc, set, t2, h, hag => by
      simp only [fillSet] at h ⊢
      split at h
      · exact absurd h (by simp)
      · exact absurd h (by simp)
      · rename_i v1 t1 hdd
        have hle1 := drawDistinct_ok_le s₁ bs acc fuel t hdd
        have hle2 := fillSet_ok_le s₁ bs fuel count t1 (acc ++ [v1]) h
        have hd2 := drawDistinct_agree s₁ s₂ bs acc fuel t hdd
          (fun u h1 h2 => hag u h1 (by omega))
        simp only [hd2]
        exact fillSet_agree s₁ s₂ bs fuel count t1 (acc ++ [v1]) h
          (fun u h1 h2 => hag u (by omega) h2)

theorem initColAux_ok_le (s : ℕ → ℕ) (n rank : List ℕ) (fuel : ℕ) :
    ∀ (cnt k t : ℕ) (acc : List (List (List ℕ)))
      {cols : List (List (List ℕ))} {t2 : ℕ},
      initColAux s n rank fuel k cnt t acc = .ok cols t2 → t ≤ t2
  | 0, k, t, acc, cols, t2, h => by
      simp only [initColAux, RngRes.ok.injEq] at h
      omega
  | cnt + 1, k, t, acc, cols, t2, h => by
      simp only [initColAux] at h
      split at h
      · exact absurd h (by simp)
      · exact absurd h (by simp)
      · rename_i set1 t1 hfs
        have h1 := fillSet_ok_le s (n.drop (k + 1)) fuel (rank.getD (k + 1) 0) t [] hfs
        have h2 := initColAux_ok_le s n rank fuel cnt (k + 1) t1 (acc ++ [set1]) h
        omega

theorem initColAux_agree (s₁ s₂ : ℕ → ℕ) (n rank : List ℕ) (fuel : ℕ) :
    ∀ (cnt k t : ℕ) (acc : List (List (List ℕ)))
      {cols : List (List (List ℕ))} {t2 : ℕ},
      initColAux s₁ n rank fuel k cnt t acc = .ok cols t2 →
      (∀ u, t ≤ u → u < t2 → s₁ u = s₂ u) →
      initColAux s₂ n rank fuel k cnt t acc = .ok cols t2
  | 0, _, _, _, _, _, h, _ => h
  | cnt + 1, k, t, acc, cols, t2, h, hag => by
      simp only [initColAux] at h ⊢
      split at h
      · exact absurd h (by simp)
      · exact absurd h (by simp)
      · rename_i set1 t1 hfs
        have hle1 := fillSet_ok_le s₁ (n.drop (k + 1)) fuel (rank.getD (k + 1) 0) t [] hfs
        have hle2 := initColAux_ok_le s₁ n rank fuel cnt (k + 1) t1 (acc ++ [set1]) h
        have hf2 := fillSet_agree s₁ s₂ (n.drop (k + 1)) fuel (rank.getD (k + 1) 0) t [] hfs
          (fun u h1 h2 => hag u h1 (by omega))
        simp only [hf2]
        exact initColAux_agree s₁ s₂ n rank fuel cnt (k + 1) t1 (acc ++ [set1]) h
          (fun u h1 h2 => hag u (by omega) h2)

theorem initFactorsAux_snd_le (s : ℕ → ℕ) (n rank : List ℕ) :
    ∀ (cnt k t : ℕ) (acc : List (List ℕ)),
      t ≤ (initFactorsAux s n rank k cnt t acc).2
  | 0, _, _, _ => le_rfl
  | cnt + 1, k, t, acc => by
      have h1 := sampleFlat_snd s (rank.getD k 0 * n.getD k 0 * rank.getD (k + 1) 0) t
      have h2 := initFactorsAux_snd_le s n rank cnt (k + 1)
        (sampleFlat s (rank.getD k 0 * n.getD k 0 * rank.getD (k + 1) 0) t).2
        (acc ++ [(sampleFlat s (rank.getD k 0 * n.getD k 0 * rank.getD (k + 1) 0) t).1])
      simp only [initFactorsAux]
      omega

theorem initFactorsAux_agree (s₁ s₂ : ℕ → ℕ) (n rank : List ℕ) :
    ∀ (cnt k t T : ℕ) (acc : List (List ℕ)),
      (initFactorsAux s₁ n rank k cnt t acc).2 ≤ T →
      (∀ u, t ≤ u → u < T → s₁ u = s₂ u) →
      initFactorsAux s₂ n rank k cnt t acc = initFactorsAux s₁ n rank k cnt t acc
  | 0, _, _, _, _, _, _ => rfl
  | cnt + 1, k, t, T, acc, hT, hag => by
      have hsnd := sampleFlat_snd s₁ (rank.getD k 0 * n.getD k 0 * rank.getD (k + 1) 0) t
      have hrec := initFactorsAux_snd_le s₁ n rank cnt (k + 1)
        (sampleFlat s₁ (rank.getD k 0 * n.getD k 0 * rank.getD (k + 1) 0) t).2
        (acc ++ [(sampleFlat s₁ (rank.getD k 0 * n.getD k 0 * rank.getD (k + 1) 0) t).1])
      simp only [initFactorsAux] at hT ⊢
      have hsf : sampleFlat s₂ (rank.getD k 0 * n.getD k 0 * rank.getD (k + 1) 0) t =
          sampleFlat s₁ (rank.getD k 0 * n.getD k 0 * rank.getD (k + 1) 0) t :=
        (sampleFlat_agree s₁ s₂ (rank.getD k 0 * n.getD k 0 * rank.getD (k + 1) 0) t
          (fun u h1 h2 => hag u h1 (by omega))).symm
      rw [hsf]
      exact initFactorsAux_agree s₁ s₂ n rank cnt (k + 1)
        (sampleFlat s₁ (rank.getD k 0 * n.getD k 0 * rank.getD (k + 1) 0) t).2 T
        (acc ++ [(sampleFlat s₁ (rank.getD k 0 * n.getD k 0 * rank.getD (k + 1) 0) t).1])
        hT (fun u h1 h2 => hag u (by omega) h2)

/-- Claim C9 (confirmed): the whole random initialisation of
`matrix_product_state_cross` — the column index sets of lines 108-117 and
the random initial cores of line 121 — is a function of the stream content
it actually reads: a second stream that agrees with the first on every
position below the final read counter produces bit-identical IndexSets and
core samples, with the same number of draws consumed.  In particular two
invocations with identical inputs and identical random source state are
bit-identical, and the rest of the algorithm consumes no randomness. -/
theorem init_deterministic_of_stream_agree (s₁ s₂ : ℕ → ℕ) (n rank : List ℕ)
    (fuel : ℕ) (cols : List (List (List ℕ))) (fs : List (List ℕ)) (tEnd : ℕ)
    (h : initAll s₁ n rank fuel = .ok (cols, fs) tEnd)
    (hag : ∀ u, u < tEnd → s₁ u = s₂ u) :
    initAll s₂ n rank fuel = .ok (cols, fs) tEnd := by
  simp only [initAll] at h ⊢
  split at h
  · exact absurd h (by simp)
  · exact absurd h (by simp)
  · rename_i cols1 t1 hcol
    have hfle := initFactorsAux_snd_le s₁ n rank n.length 0 t1 []
    simp only [RngRes.ok.injEq, Prod.mk.injEq] at h
    obtain ⟨⟨hc, hf⟩, ht⟩ := h
    have ht1 : t1 ≤ tEnd := by omega
    unfold initColIdx at hcol
    have hcol2 : initColIdx s₂ n rank fuel = .ok cols1 t1 := by
      unfold initColIdx
      exact initColAux_agree s₁ s₂ n rank fuel (n.length - 1) 0 0 [] hcol
        (fun u h1 h2 => hag u (by omega))
    simp only [hcol2]
    have hfa := initFactorsAux_agree s₁ s₂ n rank n.length 0 t1 tEnd []
      (by omega) (fun u h1 h2 => hag u h2)
    rw [hfa]
    simp only [RngRes.ok.injEq, Prod.mk.injEq]
    exact ⟨⟨hc, hf⟩, ht⟩

/-- Witness for `init_deterministic_of_stream_agree`: the identity stream
on a 2x2 tensor with profile `[1,2,1]`. -/
theorem init_deterministic_of_stream_agree_witness :
    initAll (fun t => t) [2, 2] [1, 2, 1] 3 =
      .ok ([[[0], [1]]], [[2, 3, 4, 5], [6, 7, 8, 9]]) 10 :=
  init_deterministic_of_stream_agree (fun t => t) (fun t => t) [2, 2] [1, 2, 1] 3
    [[[0], [1]]] [[2, 3, 4, 5], [6, 7, 8, 9]] 10 (by decide) (fun u _ => rfl)

/-! ## Termination of the duplicate-rejecting initialisation (claim C10) -/

theorem validTup_prod_pos : ∀ bs v : List ℕ, validTup bs v = true → 0 < bs.prod
  | [], _, _ => by simp
  | _ :: _, [], h => by simp [validTup] at h
  | b :: bs, x :: tl, h => by
      simp only [validTup, Bool.and_eq_true, decide_eq_true_eq] at h
      have := validTup_prod_pos bs tl h.2
      simp only [List.prod_cons]
      exact Nat.mul_pos (by omega) this

theorem encodeTup_lt : ∀ bs v : List ℕ, validTup bs v = true → encodeTup bs v < bs.prod
  | [], [], _ => by simp [encodeTup]
  | [], _ :: _, h => by simp [validTup] at h
  | _ :: _, [], h => by simp [validTup] at h
  | b :: bs, x :: tl, h => by
      simp only [validTup, Bool.and_eq_true, decide_eq_true_eq] at h
      have hrec := encodeTup_lt bs tl h.2
      have hpos := validTup_prod_pos bs tl h.2
      simp only [encodeTup, List.prod_cons]
      calc x * bs.prod + encodeTup bs tl < x * bs.prod + bs.prod := by omega
      _ = (x + 1) * bs.prod := by ring
      _ ≤ b * bs.prod := Nat.mul_le_mul_right bs.prod h.1

theorem mixedRadix_digit_eq {P : ℕ} : ∀ {a c e f : ℕ},
    e < P → f < P → a * P + e = c * P + f → a = c := by
  intro a c e f he hf heq
  rcases Nat.lt_trichotomy a c with h | h | h
  · exfalso
    have hstep : a * P + e < c * P + f := by
      calc a * P + e < a * P + P := by omega
      _ = (a + 1) * P := by ring
      _ ≤ c * P := Nat.mul_le_mul_right P h
      _ ≤ c * P + f := by omega
    omega
  · exact h
  · exfalso
    have hstep : c * P + f < a * P + e := by
      calc c * P + f < c * P + P := by omega
      _ = (c + 1) * P := by ring
      _ ≤ a * P := Nat.mul_le_mul_right P h
      _ ≤ a * P + e := by omega
    omega

theorem encodeTup_inj : ∀ bs v₁ v₂ : List ℕ, validTup bs v₁ = true →
    validTup bs v₂ = true → encodeTup bs v₁ = encodeTup bs v₂ → v₁ = v₂
  | [], [], [], _, _, _ => rfl
  | [], _ :: _, _, h, _, _ => by simp [validTup] at h
  | [], [], _ :: _, _, h, _ => by simp [validTup] at h
  | _ :: _, [], _, h, _, _ => by simp [validTup] at h
  | _ :: _, _ :: _, [], _, h, _ => by simp [validTup] at h
  | b :: bs, x₁ :: t₁, x₂ :: t₂, h1, h2, he => by
      simp only [validTup, Bool.and_eq_true, decide_eq_true_eq] at h1 h2
      simp only [encodeTup] at he
      have hl1 := encodeTup_lt bs t₁ h1.2
      have hl2 := encodeTup_lt bs t₂ h2.2
      have hx := mixedRadix_digit_eq hl1 hl2 he
      subst hx
      have he2 : encodeTup bs t₁ = encodeTup bs t₂ := by omega
      rw [encodeTup_inj bs t₁ t₂ h1.2 h2.2 he2]

theorem nodup_valid_length_le (bs : List ℕ) (l : List (List ℕ))
    (hnd : l.Nodup) (hval : ∀ v ∈ l, validTup bs v = true) :
    l.length ≤ bs.prod := by
  have hmap : (l.map (encodeTup bs)).Nodup :=
    hnd.map_on (fun x hx y hy hxy =>
      encodeTup_inj bs x y (hval x hx) (hval y hy) hxy)
  have hsub : (l.map (encodeTup bs)).toFinset ⊆ Finset.range bs.prod := by
    intro x hx
    rw [List.mem_toFinset] at hx
    obtain ⟨v, hv, rfl⟩ := List.mem_map.mp hx
    exact Finset.mem_range.mpr (encodeTup_lt bs v (hval v hv))
  have hcard := Finset.card_le_card hsub
  rw [List.toFinset_card_of_nodup hmap, Finset.card_range] at hcard
  simpa using hcard

theorem drawIdx_ok_valid (s : ℕ → ℕ) : ∀ (bs : List ℕ) (t : ℕ) {v : List ℕ} {t2 : ℕ},
    drawIdx s t bs = .ok (v, t2) → validTup bs v = true
  | [], t, v, t2, h => by
      simp only [drawIdx, Except.ok.injEq, Prod.mk.injEq] at h
      rw [← h.1]
      rfl
  | b :: bs, t, v, t2, h => by
      simp only [drawIdx] at h
      split at h
      · exact absurd h (by simp)
      · rename_i hb
        split at h
        · exact absurd h (by simp)
        · rename_i v1 t1 hrec
          have ih := drawIdx_ok_valid s bs (t + 1) hrec
          simp only [Except.ok.injEq, Prod.mk.injEq] at h
          rw [← h.1]
          simp only [validTup, Bool.and_eq_true, decide_eq_true_eq]
          exact ⟨Nat.mod_lt _ (Nat.pos_of_ne_zero hb), ih⟩

theorem drawDistinct_ok_props (s : ℕ → ℕ) (bs : List ℕ) (seen : List (List ℕ)) :
    ∀ (fuel t : ℕ) {v : List ℕ} {t2 : ℕ},
      drawDistinct s bs seen fuel t = .ok v t2 → validTup bs v = true ∧ v ∉ seen
  | 0, t, v, t2, h => by simp [drawDistinct] at h
  | fuel + 1, t, v, t2, h => by
      simp only [drawDistinct] at h
      split at h
      · exact absurd h (by simp)
      · rename_i v1 t1 hdi
        split at h
        · exact drawDistinct_ok_props s bs seen fuel t1 h
        · rename_i hmem
          simp only [RngRes.ok.injEq] at h
          rw [← h.1]
          exact ⟨drawIdx_ok_valid s bs t hdi, hmem⟩

theorem fillSet_ok_props (s : ℕ → ℕ) (bs : List ℕ) (fuel : ℕ) :
    ∀ (count t : ℕ) (acc : List (List ℕ)) {set : List (List ℕ)} {t2 : ℕ},
      fillSet s bs fuel count t acc = .ok set t2 →
      set.length = acc.length + count ∧
      (acc.Nodup → (∀ v ∈ acc, validTup bs v = true) →
        set.Nodup ∧ ∀ v ∈ set, validTup bs v = true)
  | 0, t, acc, set, t2, h => by
      simp only [fillSet, RngRes.ok.injEq] at h
      rw [← h.1]
      exact ⟨by omega, fun hnd hval => ⟨hnd, hval⟩⟩
  | count + 1, t, acc, set, t2, h => by
      simp only [fillSet] at h
      split at h
      · exact absurd h (by simp)
      · exact absurd h (by simp)
      · rename_i v1 t1 hdd
        obtain ⟨hv1, hnin⟩ := drawDistinct_ok_props s bs acc fuel t hdd
        obtain ⟨hlen, hprops⟩ := fillSet_ok_props s bs fuel count t1 (acc ++ [v1]) h
        constructor
        · simp only [List.length_append, List.length_singleton] at hlen
          omega
        · intro hnd hval
          apply hprops
          · simp only [List.nodup_append, List.nodup_cons, List.not_mem_nil,
              not_false_eq_true, List.nodup_nil, and_true, true_and]
            simp only [List.disjoint_singleton]
            exact ⟨hnd, hnin⟩
          · intro v hv
            rcases List.mem_append.mp hv with hv | hv
            · exact hval v hv
            · rw [List.mem_singleton.mp hv]
              exact hv1

theorem fillSet_ok_count_le (s : ℕ → ℕ) (bs : List ℕ) (fuel : ℕ)
    (count t : ℕ) {set : List (List ℕ)} {t2 : ℕ}
    (h : fillSet s bs fuel count t [] = .ok set t2) : count ≤ bs.prod := by
  obtain ⟨hlen, hprops⟩ := fillSet_ok_props s bs fuel count t [] h
  obtain ⟨hnd, hval⟩ := hprops List.nodup_nil (by simp)
  have := nodup_valid_length_le bs set hnd hval
  simp only [List.length_nil] at hlen
  omega

theorem initColAux_ok_bound (s : ℕ → ℕ) (n rank : List ℕ) (fuel : ℕ) :
    ∀ (cnt k t : ℕ) (acc : List (List (List ℕ)))
      {cols : List (List (List ℕ))} {t2 : ℕ},
      initColAux s n rank fuel k cnt t acc = .ok cols t2 →
      ∀ j, j < cnt → rank.getD (k + j + 1) 0 ≤ (n.drop (k + j + 1)).prod
  | 0, k, t, acc, cols, t2, h => by omega
  | cnt + 1, k, t, acc, cols, t2, h => by
      simp only [initColAux] at h
      split at h
      · exact absurd h (by simp)
      · exact absurd h (by simp)
      · rename_i set1 t1 hfs
        intro j hj
        match j with
        | 0 =>
          simpa using fillSet_ok_count_le s (n.drop (k + 1)) fuel (rank.getD (k + 1) 0) t hfs
        | j + 1 =>
          have ih := initColAux_ok_bound s n rank fuel cnt (k + 1) t1 (acc ++ [set1]) h
            j (by omega)
          have hidx : k + 1 + j + 1 = k + (j + 1) + 1 := by omega
          rwa [hidx] at ih

theorem initColIdx_ok_bound (s : ℕ → ℕ) (n rank : List ℕ) (fuel : ℕ)
    {cols : List (List (List ℕ))} {t2 : ℕ}
    (h : initColIdx s n rank fuel = .ok cols t2) :
    ∀ k, k + 1 < n.length → rank.getD (k + 1) 0 ≤ (n.drop (k + 1)).prod := by
  intro k hk
  have := initColAux_ok_bound s n rank fuel (n.length - 1) 0 0 [] h k (by omega)
  simpa using this

theorem drawIdx_pos_ok (s : ℕ → ℕ) : ∀ (bs : List ℕ) (t : ℕ),
    (∀ b ∈ bs, 0 < b) → ∃ p, drawIdx s t bs = .ok p
  | [], t, _ => ⟨([], t), rfl⟩
  | b :: bs, t, hpos => by
      obtain ⟨p, hp⟩ := drawIdx_pos_ok s bs (t + 1) (fun x hx => hpos x (by simp [hx]))
      refine ⟨(s t % b :: p.1, p.2), ?_⟩
      have hb : ¬ b = 0 := by
        have := hpos b (by simp)
        omega
      simp only [drawIdx, hb, if_false, hp]

theorem drawDistinct_pos_ne_err (s : ℕ → ℕ) (bs : List ℕ) (seen : List (List ℕ))
    (hpos : ∀ b ∈ bs, 0 < b) :
    ∀ (fuel t : ℕ) (e : PyErr), drawDistinct s bs seen fuel t ≠ .err e
  | 0, t, e => by simp [drawDistinct]
  | fuel + 1, t, e => by
      obtain ⟨⟨v, t1⟩, hp⟩ := drawIdx_pos_ok s bs t hpos
      simp only [drawDistinct, hp]
      split
      · exact drawDistinct_pos_ne_err s bs seen hpos fuel t1 e
      · simp

theorem fillSet_pos_ne_err (s : ℕ → ℕ) (bs : List ℕ) (fuel : ℕ)
    (hpos : ∀ b ∈ bs, 0 < b) :
    ∀ (count t : ℕ) (acc : List (List ℕ)) (e : PyErr),
      fillSet s bs fuel count t acc ≠ .err e
  | 0, t, acc, e => by simp [fillSet]
  | count + 1, t, acc, e => by
      simp only [fillSet]
      split
      · simp
      · rename_i e1 hdd
        exact absurd hdd (drawDistinct_pos_ne_err s bs acc hpos fuel t e1)
      · rename_i v1 t1 hdd
        exact fillSet_pos_ne_err s bs fuel hpos count t1 (acc ++ [v1]) e

theorem initColAux_pos_ne_err (s : ℕ → ℕ) (n rank : List ℕ) (fuel : ℕ)
    (hpos : ∀ b ∈ n, 0 < b) :
    ∀ (cnt k t : ℕ) (acc : List (List (List ℕ))) (e : PyErr),
      initColAux s n rank fuel k cnt t acc ≠ .err e
  | 0, k, t, acc, e => by simp [initColAux]
  | cnt + 1, k, t, acc, e => by
      simp only [initColAux]
      split
      · simp
      · rename_i e1 hfs
        exact absurd hfs (fillSet_pos_ne_err s (n.drop (k + 1)) fuel
          (fun b hb => hpos b (List.drop_subset _ _ hb)) (rank.getD (k + 1) 0) t [] e1)
      · rename_i set1 t1 hfs
        exact initColAux_pos_ne_err s n rank fuel hpos cnt (k + 1) t1 (acc ++ [set1]) e

/-- Claim C10 (amended): the duplicate-rejecting initialisation loop can
complete only when, for every processed mode boundary, `rank[k+1]` does not
exceed the number of distinct multi-indices over modes `k+1..d-1` (the
product of those mode sizes) — completing it builds a duplicate-free list
of such multi-indices, which pigeonholes.  Conversely, when some
`rank[k+1]` exceeds that product AND every mode size is positive, no fuel
budget ever completes the loop and no exception is raised: the run spins
forever.  (When a relevant mode size is zero the draw itself raises, see
the counterexample.) -/
theorem init_termination_bound :
    (∀ (s : ℕ → ℕ) (n rank : List ℕ) (fuel : ℕ)
        (cols : List (List (List ℕ))) (t2 : ℕ),
        initColIdx s n rank fuel = .ok cols t2 →
        ∀ k, k + 1 < n.length → rank.getD (k + 1) 0 ≤ (n.drop (k + 1)).prod) ∧
    (∀ (s : ℕ → ℕ) (n rank : List ℕ) (fuel : ℕ),
        (∀ b ∈ n, 0 < b) →
        (∃ k, k + 1 < n.length ∧ (n.drop (k + 1)).prod < rank.getD (k + 1) 0) →
        initColIdx s n rank fuel = .spin) := by
  constructor
  · intro s n rank fuel cols t2 h
    exact initColIdx_ok_bound s n rank fuel h
  · intro s n rank fuel hpos hex
    cases hres : initColIdx s n rank fuel with
    | ok cols t2 =>
      obtain ⟨k, hk, hlt⟩ := hex
      have := initColIdx_ok_bound s n rank fuel hres k hk
      omega
    | err e =>
      exact absurd hres (initColAux_pos_ne_err s n rank fuel hpos (n.length - 1) 0 0 [] e)
    | spin => rfl

/-- Witness for `init_termination_bound`: on a `2x2` tensor,
`rank[1] = 3 > 2` spins for ever (fuel 20 shown), while a completed run
with `rank[1] = 2` satisfies the bound. -/
theorem init_termination_bound_witness :
    initColIdx (fun t => t) [2, 2] [1, 3, 1] 20 = .spin ∧
    ∀ k, k + 1 < ([2, 2] : List ℕ).length →
      ([1, 2, 1] : List ℕ).getD (k + 1) 0 ≤ (([2, 2] : List ℕ).drop (k + 1)).prod :=
  ⟨init_termination_bound.2 (fun t => t) [2, 2] [1, 3, 1] 20
      (by decide) ⟨0, by decide, by decide⟩,
    init_termination_bound.1 (fun t => t) [2, 2] [1, 2, 1] 5 [[[0], [1]]] 2 (by decide)⟩

/-- Claim C10 (counterexample to the claim as stated): with a zero-size
mode the bound is exceeded (`rank[1] = 1 > 0`), but instead of looping
forever the very first draw calls `randint(0)`, which raises — so the
decompose call raises rather than neither returning nor raising. -/
theorem init_zero_mode_raises :
    initColIdx (fun t => t) [2, 0] [1, 1, 1] 5 = .err .valueError ∧
    (([2, 0] : List ℕ).drop 1).prod < ([1, 1, 1] : List ℕ).getD 1 0 := by decide

end TTCross
